import Mathlib

/-!
Verification of the KrakenD go-template language-support core: a shallow
embedding of the schema store (`schemaParser.ts`), the context analyzer
(`contextAnalyzer.ts`), the diagnostics provider
(`krakenDDiagnosticsProvider.ts`) and the completion provider
(`krakenDCompletionProvider.ts`), followed by theorems settling the
specification claims.

JavaScript strings are modelled as `String` (`List Char`); all regex-driven
scans of the source are reimplemented as explicit tokenizing scans over the
identifier/delimiter grammar.  Scans whose recursion is not structural take
an explicit fuel argument; every wrapper supplies fuel larger than the input
length, which makes the scan total and equal to the unbounded source loop.
-/

namespace GoTmpl

/-- The two brace characters, kept as named constants. -/
def openBraceChar : Char := Char.ofNat 123

def closeBraceChar : Char := Char.ofNat 125

/-- JS regex `\w`: letters, digits and underscore (ASCII). -/
def isWordChar (c : Char) : Bool :=
  (('a' ≤ c && c ≤ 'z') || ('A' ≤ c && c ≤ 'Z') || ('0' ≤ c && c ≤ '9') || c = '_')

/-- JS regex `\s` restricted to the ASCII whitespace the documents use. -/
def isSpaceChar (c : Char) : Bool :=
  (c = ' ' || c = '\t' || c = '\n' || c = '\r')

/-- Does `pat` occur at the head of `hay`? (scanning helper) -/
def matchesAt : List Char → List Char → Bool
  | _, [] => true
  | [], _ :: _ => false
  | h :: hs, p :: ps => h = p && matchesAt hs ps

/-- JS `String.prototype.includes`: does `pat` occur anywhere in `hay`? -/
def containsSub (hay pat : List Char) : Bool :=
  match hay with
  | [] => matchesAt [] pat
  | _ :: rest => matchesAt hay pat || containsSub rest pat

/-- JS `String.prototype.includes` on `String`. -/
def strContains (hay pat : String) : Bool :=
  containsSub hay.data pat.data

/-- Index of the first occurrence of `pat` in `hay`, JS `indexOf` (`-1` as `none`). -/
def indexOfSub (hay pat : List Char) : Option Nat :=
  match hay with
  | [] => if matchesAt [] pat then some 0 else none
  | _ :: rest =>
    if matchesAt hay pat then some 0
    else (indexOfSub rest pat).map (· + 1)

/-- Index of the last occurrence of `pat` in `hay`, JS `lastIndexOf` (`-1` as `none`). -/
def lastIndexOfSub (hay pat : List Char) : Option Nat :=
  match hay with
  | [] => if matchesAt [] pat then some 0 else none
  | _ :: rest =>
    match lastIndexOfSub rest pat with
    | some i => some (i + 1)
    | none => if matchesAt hay pat then some 0 else none

/-- JS `String.prototype.trim` (both ends, whitespace per `isSpaceChar`). -/
def trimChars (l : List Char) : List Char :=
  ((l.dropWhile isSpaceChar).reverse.dropWhile isSpaceChar).reverse

/-- JS `String.prototype.toLowerCase` on the ASCII strings in play. -/
def lowerStr (s : String) : String :=
  ⟨s.data.map Char.toLower⟩

/-- Lexicographic comparison of character lists (JS `<` on strings, the
order the host applies to `sortText` keys). -/
def listLtChar : List Char → List Char → Bool
  | [], [] => false
  | [], _ :: _ => true
  | _ :: _, [] => false
  | a :: as, b :: bs => if a < b then true else if b < a then false else listLtChar as bs

/-- Lexicographic string comparison. -/
def strLt (s t : String) : Bool :=
  listLtChar s.data t.data

/-! ## Schema store (`schemaParser.ts`) -/

/-- `CtxType` from `contextAnalyzer.ts`: `'endpoint' | 'backend' | 'unknown'`. -/
inductive CtxType where
  | endpoint
  | backend
  | unknown
deriving DecidableEq, Repr

/-- `FieldInfo` from `schemaParser.ts`.  The TS `default` field holds an
arbitrary JSON value that no query inspects; it is carried as an opaque
optional string. -/
structure FieldInfo where
  name : String
  type : String
  description : String
  default : Option String
  enum : Option (List String)
  required : Bool
deriving DecidableEq, Repr

/-- `SchemaProperty` from `schemaParser.ts`: a JSON-schema property tree.
`type` is `string | string[]`, modelled as a sum.  Optional TS members are
`Option`s (JS distinguishes an absent `properties` from an empty one). -/
inductive SchemaProperty where
  | mk
    (type : Option (String ⊕ List String))
    (description : Option String)
    (title : Option String)
    (default : Option String)
    (enum : Option (List String))
    (properties : Option (List (String × SchemaProperty)))
    (items : Option SchemaProperty)
    (ref : Option String)
    (required : Option (List String))

def SchemaProperty.type : SchemaProperty → Option (String ⊕ List String)
  | .mk t _ _ _ _ _ _ _ _ => t

def SchemaProperty.description : SchemaProperty → Option String
  | .mk _ d _ _ _ _ _ _ _ => d

def SchemaProperty.title : SchemaProperty → Option String
  | .mk _ _ t _ _ _ _ _ _ => t

def SchemaProperty.default : SchemaProperty → Option String
  | .mk _ _ _ d _ _ _ _ _ => d

def SchemaProperty.enum : SchemaProperty → Option (List String)
  | .mk _ _ _ _ e _ _ _ _ => e

def SchemaProperty.properties : SchemaProperty → Option (List (String × SchemaProperty))
  | .mk _ _ _ _ _ p _ _ _ => p

def SchemaProperty.items : SchemaProperty → Option SchemaProperty
  | .mk _ _ _ _ _ _ i _ _ => i

def SchemaProperty.ref : SchemaProperty → Option String
  | .mk _ _ _ _ _ _ _ r _ => r

def SchemaProperty.required : SchemaProperty → Option (List String)
  | .mk _ _ _ _ _ _ _ _ r => r

/-- `KrakenDSchema` from `schemaParser.ts`: `{properties, definitions}`.
JS object literals keep insertion order, so both tables are ordered
association lists with unique keys. -/
structure KrakenDSchema where
  properties : List (String × SchemaProperty)
  definitions : List (String × SchemaProperty)

/-- JS object / `Map` read access: first entry with the given key. -/
def mapGet {α : Type} (m : List (String × α)) (k : String) : Option α :=
  match m with
  | [] => none
  | (k0, v) :: rest => if k0 = k then some v else mapGet rest k

/-- JS `Map.set`: overwrite in place when the key exists, else append. -/
def mapSet {α : Type} (m : List (String × α)) (k : String) (v : α) : List (String × α) :=
  match m with
  | [] => [(k, v)]
  | (k0, v0) :: rest => if k0 = k then (k, v) :: rest else (k0, v0) :: mapSet rest k v

/-- The parser state: `schema` plus the three field tables (JS `Map`s in
insertion order). -/
structure SchemaParser where
  schema : Option KrakenDSchema
  endpointFields : List (String × FieldInfo)
  backendFields : List (String × FieldInfo)
  rootFields : List (String × FieldInfo)

/-- The freshly constructed store: `schema = null`, all tables empty. -/
def SchemaParser.empty : SchemaParser :=
  { schema := none, endpointFields := [], backendFields := [], rootFields := [] }

/-- The constant `fieldMappings` map: canonical name to prefixed public name. -/
def fieldMappings : List (String × String) :=
  [("output_encoding", "endpoint_output_encoding"),
   ("url", "endpoint_url"),
   ("input_headers", "endpoint_input_headers"),
   ("input_query_strings", "endpoint_input_query_strings"),
   ("extra_config", "endpoint_extra_config"),
   ("encoding", "backend_encoding"),
   ("method", "backend_method"),
   ("url_pattern", "backend_url_pattern"),
   ("settings", "backend_settings")]

/-- `getTypeString`: display type of a property (`object` for refs, a
union-joined list, `<item>[]` for arrays, else the scalar or `any`). -/
def getTypeString : SchemaProperty → String
  | .mk type _ _ _ _ _ items ref _ =>
    if ref.isSome then "object"
    else
      match type with
      | some (.inr ts) => String.intercalate " | " ts
      | some (.inl t) =>
        if t = "array" then
          match items with
          | some it => getTypeString it ++ "[]"
          | none => t
        else t
      | none => "any"

/-- `parseFields`: build one `FieldInfo` per property into the target map. -/
def parseFields (properties : List (String × SchemaProperty))
    (targetMap : List (String × FieldInfo)) (required : List String) :
    List (String × FieldInfo) :=
  properties.foldl
    (fun m kp =>
      mapSet m kp.1
        { name := kp.1
          type := getTypeString kp.2
          description := (kp.2.description.getD (kp.2.title.getD ""))
          default := kp.2.default
          enum := kp.2.enum
          required := required.contains kp.1 })
    targetMap

/-- `ref.replace('#/definitions/', '')`: JS string-pattern `replace` swaps
only the first occurrence. -/
def replaceFirstSub (hay pat rep : List Char) : List Char :=
  match hay with
  | [] => []
  | c :: rest =>
    if matchesAt hay pat then rep ++ hay.drop pat.length
    else c :: replaceFirstSub rest pat rep

/-- `refPath.replace(/\//g, '~1')`. -/
def replSlashes : List Char → List Char
  | [] => []
  | c :: rest => if c = '/' then '~' :: '1' :: replSlashes rest else c :: replSlashes rest

/-- `.replace(/:/g, '%3A')`. -/
def replColons : List Char → List Char
  | [] => []
  | c :: rest => if c = ':' then '%' :: '3' :: 'A' :: replColons rest else c :: replColons rest

/-- `refPath.replace(/~1/g, '/')`. -/
def replTilde1 : List Char → List Char
  | '~' :: '1' :: rest => '/' :: replTilde1 rest
  | c :: rest => c :: replTilde1 rest
  | [] => []

/-- `.replace(/%3A/g, ':')`. -/
def replPct3A : List Char → List Char
  | '%' :: '3' :: 'A' :: rest => ':' :: replPct3A rest
  | c :: rest => c :: replPct3A rest
  | [] => []

/-- Hexadecimal digit value, as `decodeURIComponent` reads escapes. -/
def hexVal (c : Char) : Option Nat :=
  if '0' ≤ c && c ≤ '9' then some (c.toNat - '0'.toNat)
  else if 'A' ≤ c && c ≤ 'F' then some (c.toNat - 'A'.toNat + 10)
  else if 'a' ≤ c && c ≤ 'f' then some (c.toNat - 'a'.toNat + 10)
  else none

/-- `decodeURIComponent`, modelled byte-per-escape on the ASCII schema keys
in play (`none` models the `URIError` the source catches and ignores). -/
def percentDecode : List Char → Option (List Char)
  | [] => some []
  | '%' :: c1 :: c2 :: rest =>
    match hexVal c1, hexVal c2 with
    | some h, some l => (percentDecode rest).map (Char.ofNat (16 * h + l) :: ·)
    | _, _ => none
  | '%' :: _ :: [] => none
  | '%' :: [] => none
  | c :: rest => (percentDecode rest).map (c :: ·)

/-- `resolveRef`: strip `#/definitions/`, then try the literal path, the
path-escaped form, and the percent-decoded form, in that order. -/
def resolveRef (schema : KrakenDSchema) (ref : String) : Option SchemaProperty :=
  let refPath : List Char := replaceFirstSub ref.data "#/definitions/".data []
  match mapGet schema.definitions ⟨refPath⟩ with
  | some d => some d
  | none =>
    let encodedPath := replColons (replSlashes refPath)
    match mapGet schema.definitions ⟨encodedPath⟩ with
    | some d => some d
    | none =>
      match percentDecode (replPct3A (replTilde1 refPath)) with
      | some decodedPath => mapGet schema.definitions ⟨decodedPath⟩
      | none => none

/-- `parseSchema`: root fields always; endpoint fields through
`properties.endpoints.items.$ref`; backend fields through the resolved
endpoint shape's `properties.backend.items.$ref`.  Any miss leaves the
corresponding table empty. -/
def parseSchemaStore (s : KrakenDSchema) : SchemaParser :=
  let root := parseFields s.properties [] []
  let tables : List (String × FieldInfo) × List (String × FieldInfo) :=
    match ((mapGet s.properties "endpoints").bind SchemaProperty.items).bind SchemaProperty.ref with
    | none => ([], [])
    | some endpointRef =>
      match resolveRef s endpointRef with
      | none => ([], [])
      | some endpointDef =>
        match endpointDef.properties with
        | none => ([], [])
        | some eprops =>
          let eFields := parseFields eprops [] (endpointDef.required.getD [])
          let bFields :=
            match ((mapGet eprops "backend").bind SchemaProperty.items).bind SchemaProperty.ref with
            | none => []
            | some backendRef =>
              match resolveRef s backendRef with
              | none => []
              | some backendDef =>
                match backendDef.properties with
                | none => []
                | some bprops => parseFields bprops [] (backendDef.required.getD [])
          (eFields, bFields)
  { schema := some s
    endpointFields := tables.1
    backendFields := tables.2
    rootFields := root }

/-- `loadSchema`: the outcome of `readFileSync` + `JSON.parse` is the input;
on failure the `catch` leaves the freshly initialized empty store untouched. -/
def loadSchema (parsed : Except String KrakenDSchema) : SchemaParser :=
  match parsed with
  | .error _ => SchemaParser.empty
  | .ok s => parseSchemaStore s

/-- The alias copy of a canonical field, as both `getFields` variants and
`getFieldInfo` build it. -/
def aliasCopy (f : FieldInfo) (known : String) (original : String) : FieldInfo :=
  { f with
      name := known
      description := f.description ++ " (Custom field: maps to " ++ original ++ ")" }

/-- Alias entries appended by `getEndpointFields` / `getBackendFields`. -/
def aliasEntriesOf (m : List (String × FieldInfo)) : List FieldInfo :=
  (m.map Prod.snd).filterMap fun f =>
    (mapGet fieldMappings f.name).map fun mapped => aliasCopy f mapped f.name

/-- `getEndpointFields`: canonical fields then their alias copies. -/
def getEndpointFields (p : SchemaParser) : List FieldInfo :=
  p.endpointFields.map Prod.snd ++ aliasEntriesOf p.endpointFields

/-- `getBackendFields`: canonical fields then their alias copies. -/
def getBackendFields (p : SchemaParser) : List FieldInfo :=
  p.backendFields.map Prod.snd ++ aliasEntriesOf p.backendFields

/-- `getRootFields`: canonical fields only. -/
def getRootFields (p : SchemaParser) : List FieldInfo :=
  p.rootFields.map Prod.snd

/-- The table a context selects: the final branch of the source conditional
(every context other than `endpoint`/`backend`, including `unknown`) falls
to the root table. -/
def contextMap (p : SchemaParser) : CtxType → List (String × FieldInfo)
  | .endpoint => p.endpointFields
  | .backend => p.backendFields
  | .unknown => p.rootFields

/-- The `for (const [original, prefixed] of fieldMappings)` loop inside
`getFieldInfo`: first pair whose public name matches and whose canonical
field exists wins. -/
def aliasLookup (pairs : List (String × String)) (get : String → Option FieldInfo)
    (fieldName : String) : Option FieldInfo :=
  match pairs with
  | [] => none
  | (original, mapped) :: rest =>
    if mapped = fieldName then
      match get original with
      | some f => some (aliasCopy f mapped original)
      | none => aliasLookup rest get fieldName
    else aliasLookup rest get fieldName

/-- `getFieldInfo`: canonical name first, then the alias table. -/
def getFieldInfo (p : SchemaParser) (context : CtxType) (fieldName : String) :
    Option FieldInfo :=
  let m := contextMap p context
  match mapGet m fieldName with
  | some f => some f
  | none => aliasLookup fieldMappings (mapGet m) fieldName

/-- `isValidField`. -/
def isValidField (p : SchemaParser) (context : CtxType) (fieldName : String) : Bool :=
  (getFieldInfo p context fieldName).isSome

/-- `getEnumValues`. -/
def getEnumValues (p : SchemaParser) (context : CtxType) (fieldName : String) :
    Option (List String) :=
  (getFieldInfo p context fieldName).bind FieldInfo.enum

/-! ## Context analyzer (`contextAnalyzer.ts`) -/

/-- A zero-based editor position. -/
structure Position where
  line : Nat
  character : Nat
deriving DecidableEq, Repr

/-- The slice of `vscode.TextDocument` the analyzers read: language id, file
name, and the line buffer (full text = lines joined with a newline). -/
structure TextDocument where
  languageId : String
  fileName : String
  lines : List String
deriving DecidableEq, Repr

/-- `document.lineAt(n).text`. -/
def lineAt (doc : TextDocument) (n : Nat) : String :=
  doc.lines.getD n ""

/-- `document.getText()`. -/
def fullText (doc : TextDocument) : String :=
  String.intercalate "\n" doc.lines

/-- `document.getText(range)` for a range starting at column 0 of
`startLine` and ending at `(endLine, endChar)`. -/
def textInRange (lines : List String) (startLine endLine endChar : Nat) : String :=
  let fullLines := (lines.drop startLine).take (endLine - startLine)
  let lastPart : String := ⟨(lines.getD endLine "").data.take endChar⟩
  String.intercalate "\n" (fullLines ++ [lastPart])

/-- `TemplateContext` from `contextAnalyzer.ts` (the unused `range` member
is not modelled; absent members are `none`). -/
structure TemplateContext where
  type : CtxType
  variableName : Option String
  fieldPath : Option (List String)
deriving DecidableEq, Repr

/-- The opening action delimiter. -/
def openDelim : List Char := [openBraceChar, openBraceChar]

/-- The closing action delimiter. -/
def closeDelim : List Char := [closeBraceChar, closeBraceChar]

/-- The `(?:\.\w+)*` part of the variable-reference pattern, already split
on dots as `analyzeContext` does. -/
def parseFieldPath : Nat → List Char → List String
  | 0, _ => []
  | fuel + 1, '.' :: rest =>
    let w := rest.takeWhile isWordChar
    if w = [] then []
    else (⟨w⟩ : String) :: parseFieldPath fuel (rest.drop w.length)
  | _ + 1, _ => []

/-- First match of `\$(\w+)((?:\.\w+)*)` in a string: the variable name and
the dot-separated field path. -/
def findVarMatch : Nat → List Char → Option (String × List String)
  | 0, _ => none
  | _ + 1, [] => none
  | fuel + 1, '$' :: rest =>
    let w := rest.takeWhile isWordChar
    if w = [] then findVarMatch fuel rest
    else some ((⟨w⟩ : String), parseFieldPath fuel (rest.drop w.length))
  | fuel + 1, _ :: rest => findVarMatch fuel rest

/-- JS `\s*`. -/
def skipSpaces (l : List Char) : List Char :=
  l.dropWhile isSpaceChar

/-- The `\$(\w+)\s*:=\s*([^\}]+)\}\}` tail of the iteration-binding pattern.
On success: bound variable, source expression (as the regex captures it,
greedy `\s*` first) and the remainder after the closing delimiter. -/
def parseRangeTail (chars : List Char) : Option (String × String × List Char) :=
  match chars with
  | '$' :: rest =>
    let w := rest.takeWhile isWordChar
    if w = [] then none
    else
      match skipSpaces (rest.drop w.length) with
      | ':' :: '=' :: afterAssign =>
        let r := afterAssign.takeWhile (· ≠ closeBraceChar)
        if r = [] then none
        else
          let captured :=
            match r.dropWhile isSpaceChar with
            | [] => r.drop (r.length - 1)
            | e => e
          match afterAssign.drop r.length with
          | c1 :: c2 :: after =>
            if c1 = closeBraceChar && c2 = closeBraceChar then
              some ((⟨w⟩ : String), (⟨captured⟩ : String), after)
            else none
          | _ => none
      | _ => none
  | _ => none

/-- One attempt of the iteration-binding pattern
`\{\{\s*range\s+(?:\$\w+,\s*)?\$(\w+)\s*:=\s*([^\}]+)\}\}` at the head of
the input. -/
def tryRangeMatch (chars : List Char) : Option (String × String × List Char) :=
  match chars with
  | c1 :: c2 :: r =>
    if c1 = openBraceChar && c2 = openBraceChar then
      let afterOpen := skipSpaces r
      if matchesAt afterOpen "range".data then
        let afterRange := afterOpen.drop 5
        let sp := afterRange.takeWhile isSpaceChar
        if sp = [] then none
        else
          let afterWs := afterRange.drop sp.length
          let withIndex :=
            match afterWs with
            | '$' :: rest =>
              let w1 := rest.takeWhile isWordChar
              if w1 = [] then none
              else
                match rest.drop w1.length with
                | ',' :: afterComma => parseRangeTail (skipSpaces afterComma)
                | _ => none
            | _ => none
          match withIndex with
          | some res => some res
          | none => parseRangeTail afterWs
      else none
    else none
  | _ => none

/-- `matchAll` of the iteration-binding pattern: all (non-overlapping,
left-to-right) matches as (bound variable, source expression) pairs. -/
def rangeMatchAll : Nat → List Char → List (String × String)
  | 0, _ => []
  | _ + 1, [] => []
  | fuel + 1, chars =>
    match tryRangeMatch chars with
    | some (v, e, after) => (v, e) :: rangeMatchAll fuel after
    | none =>
      match chars with
      | [] => []
      | _ :: rest => rangeMatchAll fuel rest

/-- `inferContextFromSurrounding`: last iteration binding in the preceding
50-line window; its source expression classifies first, then its bound
variable name. -/
def inferContextFromSurrounding (doc : TextDocument) (pos : Position) : CtxType :=
  let textBefore := textInRange doc.lines (pos.line - 50) pos.line pos.character
  let ms := rangeMatchAll (textBefore.length + 1) textBefore.data
  match ms.getLast? with
  | none => .unknown
  | some (variableName, rangeExpression) =>
    if strContains rangeExpression "endpoints" || strContains rangeExpression ".endpoints" then
      .endpoint
    else if strContains rangeExpression "backends" || strContains rangeExpression ".backends"
        || strContains rangeExpression "frontend_backends" then
      .backend
    else if strContains (lowerStr variableName) "endpoint" then .endpoint
    else if strContains (lowerStr variableName) "backend" then .backend
    else .unknown

/-- `analyzeContext`: inside an open action, extract `$var.field...`, then
classify, structural binding first, variable-name hints second. -/
def analyzeContext (doc : TextDocument) (pos : Position) : TemplateContext :=
  let line := lineAt doc pos.line
  let textBeforeCursor : List Char := line.data.take pos.character
  match lastIndexOfSub textBeforeCursor openDelim with
  | none => ⟨.unknown, none, none⟩
  | some lastOpen =>
    let closedAfter :=
      match lastIndexOfSub textBeforeCursor closeDelim with
      | some lastClose => decide (lastOpen < lastClose)
      | none => false
    if closedAfter then ⟨.unknown, none, none⟩
    else
      let expression := trimChars (textBeforeCursor.drop (lastOpen + 2))
      match findVarMatch (expression.length + 1) expression with
      | none => ⟨.unknown, none, none⟩
      | some (variableName, fieldPath) =>
        let t0 := inferContextFromSurrounding doc pos
        let t :=
          if t0 = .unknown then
            if variableName = "endpoint" || strContains (lowerStr variableName) "endpoint" then
              .endpoint
            else if variableName = "backend" || strContains (lowerStr variableName) "backend" then
              .backend
            else .unknown
          else t0
        ⟨t, some variableName, some fieldPath⟩

/-! ## Diagnostics provider (`krakenDDiagnosticsProvider.ts`) -/

/-- Diagnostic severities in play. -/
inductive DiagnosticSeverity where
  | error
  | warning
deriving DecidableEq, Repr

/-- An editor range. -/
structure LspRange where
  startPos : Position
  endPos : Position
deriving DecidableEq, Repr

/-- A `vscode.Diagnostic` as this provider populates it. -/
structure Diagnostic where
  range : LspRange
  message : String
  severity : DiagnosticSeverity
  source : String
  code : String
deriving DecidableEq, Repr

/-- One inner step of the `levenshteinDistance` matrix: compute row entries
`matrix[i][1..]` from the diagonal, the previous row tail and the running
left neighbour. -/
def levRowAux (c2 : Char) : List Char → Nat → List Nat → Nat → List Nat
  | [], _, _, _ => []
  | _ :: _, _, [], _ => []
  | c1 :: rest, diag, pj :: prow, left =>
    let cur := if c2 = c1 then diag else Nat.min (Nat.min diag left) pj + 1
    cur :: levRowAux c2 rest pj prow cur

/-- `levenshteinDistance(str1, str2)`: the full-matrix dynamic program of
the source, row by row; the result is `matrix[str2.length][str1.length]`. -/
def levenshteinDistance (str1 str2 : String) : Nat :=
  let s1 := str1.data
  let row0 := List.range (s1.length + 1)
  let final := str2.data.foldl
    (fun (st : List Nat × Nat) c2 =>
      let i := st.2 + 1
      (i :: levRowAux c2 s1 (st.1.headD 0) (st.1.drop 1) i, i))
    (row0, 0)
  final.1.getLastD 0

/-- Stable insertion into a distance-sorted list: the new element goes
before the first entry whose distance is not smaller, as one step of the
(stable) JS `Array.prototype.sort` with comparator `a.distance - b.distance`. -/
def insertByDist (x : String × Nat) : List (String × Nat) → List (String × Nat)
  | [] => [x]
  | y :: ys => if y.2 < x.2 then y :: insertByDist x ys else x :: y :: ys

/-- The stable sort by ascending distance (`.sort((a, b) => a.distance - b.distance)`). -/
def sortByDist (l : List (String × Nat)) : List (String × Nat) :=
  l.foldr insertByDist []

/-- Core of `findSimilarFields` over an explicit field table: map to
(name, distance), keep distances `≤ 3`, stable-sort ascending, keep names. -/
def similarFieldsOf (fields : List FieldInfo) (fieldName : String) : List String :=
  let pairs := fields.map fun f =>
    (f.name, levenshteinDistance (lowerStr fieldName) (lowerStr f.name))
  (sortByDist (pairs.filter fun p => p.2 ≤ 3)).map Prod.fst

/-- The field table the providers pick for a context (the same conditional
appears in `findSimilarFields` and `getFieldCompletions`). -/
def fieldsForContext (p : SchemaParser) : CtxType → List FieldInfo
  | .endpoint => getEndpointFields p
  | .backend => getBackendFields p
  | .unknown => getRootFields p

/-- `findSimilarFields`. -/
def findSimilarFields (p : SchemaParser) (contextType : CtxType) (fieldName : String) :
    List String :=
  similarFieldsOf (fieldsForContext p contextType) fieldName

/-- One occurrence of the `\{\{\s*\$(\w+)\.(\w+)` pattern: `start` is the
document offset of the dollar sign (`match.index + match[0].indexOf(...)`). -/
structure FieldRef where
  start : Nat
  variableName : String
  fieldName : String
deriving DecidableEq, Repr

/-- One attempt of the field-reference pattern at the head of the input:
returns the dollar offset inside the match, the captures and the match
length. -/
def tryFieldRefMatch (chars : List Char) : Option (Nat × String × String × Nat) :=
  match chars with
  | c1 :: c2 :: r =>
    if c1 = openBraceChar && c2 = openBraceChar then
      let sp := r.takeWhile isSpaceChar
      match r.drop sp.length with
      | '$' :: rest =>
        let w1 := rest.takeWhile isWordChar
        if w1 = [] then none
        else
          match rest.drop w1.length with
          | '.' :: rest2 =>
            let w2 := rest2.takeWhile isWordChar
            if w2 = [] then none
            else
              some (2 + sp.length, (⟨w1⟩ : String), (⟨w2⟩ : String),
                2 + sp.length + 1 + w1.length + 1 + w2.length)
          | _ => none
      | _ => none
    else none
  | _ => none

/-- The `while ((match = fieldPattern.exec(text)) !== null)` loop: all
non-overlapping matches, left to right. -/
def findFieldRefs : Nat → List Char → Nat → List FieldRef
  | 0, _, _ => []
  | _ + 1, [], _ => []
  | fuel + 1, chars, idx =>
    match tryFieldRefMatch chars with
    | some (dOff, v, f, len) =>
      ⟨idx + dOff, v, f⟩ :: findFieldRefs fuel (chars.drop len) (idx + len)
    | none =>
      match chars with
      | [] => []
      | _ :: rest => findFieldRefs fuel rest (idx + 1)

/-- All field references of a document. -/
def fieldRefsOf (doc : TextDocument) : List FieldRef :=
  findFieldRefs ((fullText doc).length + 1) (fullText doc).data 0

/-- `document.positionAt`, walking the line buffer (newline counts one
character; out-of-range offsets clamp to the end of the document). -/
def positionAtAux : List String → Nat → Nat → Position
  | [], l, _ => ⟨l, 0⟩
  | [s], l, off => ⟨l, min off s.length⟩
  | s :: s2 :: rest, l, off =>
    if off ≤ s.length then ⟨l, off⟩ else positionAtAux (s2 :: rest) (l + 1) (off - s.length - 1)

/-- `document.positionAt(offset)`. -/
def positionAt (doc : TextDocument) (offset : Nat) : Position :=
  positionAtAux doc.lines 0 offset

/-- The display string of a context (`${context.type}` in messages). -/
def ctxName : CtxType → String
  | .endpoint => "endpoint"
  | .backend => "backend"
  | .unknown => "unknown"

/-- The per-occurrence body of the unknown-field pass: skip when the
context is unknown, skip valid fields, otherwise build the warning with up
to three suggestions. -/
def checkFieldRef (p : SchemaParser) (doc : TextDocument) (ref : FieldRef) :
    Option Diagnostic :=
  let pos := positionAt doc ref.start
  let context := analyzeContext doc pos
  if context.type = .unknown then none
  else if isValidField p context.type ref.fieldName then none
  else
    let refText := "$" ++ ref.variableName ++ "." ++ ref.fieldName
    let suggestions := findSimilarFields p context.type ref.fieldName
    let baseMsg := "Field \x27" ++ ref.fieldName ++ "\x27 does not exist in "
      ++ ctxName context.type ++ " schema"
    let msg :=
      if suggestions.length > 0 then
        baseMsg ++ ". Did you mean: " ++ String.intercalate ", " (suggestions.take 3) ++ "?"
      else baseMsg
    some
      { range := ⟨pos, positionAt doc (ref.start + refText.length)⟩
        message := msg
        severity := .warning
        source := "KrakenD Schema"
        code := "unknown-field" }

/-- The unknown-field pass of `updateDiagnostics`. -/
def fieldPassDiagnostics (p : SchemaParser) (doc : TextDocument) : List Diagnostic :=
  (fieldRefsOf doc).filterMap (checkFieldRef p doc)

/-- JS `text.split('\n')`. -/
def splitNL : List Char → List String
  | [] => [""]
  | '\n' :: rest => "" :: splitNL rest
  | c :: rest =>
    match splitNL rest with
    | [] => [(⟨[c]⟩ : String)]
    | s :: ss => (⟨c :: s.data⟩ : String) :: ss

/-- One match of `"(\w+)":\s*"([^"]+)"` (key, value, and the matched text
to replay `match[0].indexOf`). -/
structure JsonKV where
  index : Nat
  key : String
  value : String
  matchText : List Char
deriving DecidableEq, Repr

/-- One attempt of the quoted key/value pattern at the head of the input:
captures plus the matched text and the remainder. -/
def tryJsonValueMatch (chars : List Char) : Option (String × String × List Char × List Char) :=
  match chars with
  | '"' :: r1 =>
    let k := r1.takeWhile isWordChar
    if k = [] then none
    else
      match r1.drop k.length with
      | '"' :: ':' :: r2 =>
        let sp := r2.takeWhile isSpaceChar
        match r2.drop sp.length with
        | '"' :: r3 =>
          let v := r3.takeWhile (· ≠ '"')
          if v = [] then none
          else
            match r3.drop v.length with
            | '"' :: rest =>
              some ((⟨k⟩ : String), (⟨v⟩ : String),
                '"' :: k ++ '"' :: ':' :: sp ++ '"' :: v ++ ['"'], rest)
            | _ => none
        | _ => none
      | _ => none
  | _ => none

/-- The `while ((match = jsonValuePattern.exec(line)) !== null)` loop. -/
def jsonValueMatches : Nat → List Char → Nat → List JsonKV
  | 0, _, _ => []
  | _ + 1, [], _ => []
  | fuel + 1, chars, idx =>
    match tryJsonValueMatch chars with
    | some (k, v, mt, rest) =>
      ⟨idx, k, v, mt⟩ :: jsonValueMatches fuel rest (idx + mt.length)
    | none =>
      match chars with
      | [] => []
      | _ :: rest => jsonValueMatches fuel rest (idx + 1)

/-- `validateEnumValues`: per line, per quoted key/value match, skip values
containing an open delimiter, resolve context at the line's column 0, and
flag literal values outside a non-empty enum. -/
def validateEnumValues (p : SchemaParser) (doc : TextDocument) : List Diagnostic :=
  let lines := splitNL (fullText doc).data
  lines.enum.flatMap fun li =>
    (jsonValueMatches (li.2.length + 1) li.2.data 0).filterMap fun m =>
      if containsSub m.value.data openDelim then none
      else
        let context := analyzeContext doc ⟨li.1, 0⟩
        if context.type = .unknown then none
        else
          match getEnumValues p context.type m.key with
          | none => none
          | some enumValues =>
            if enumValues.length > 0 && !(enumValues.contains m.value) then
              let valueStart :=
                m.index + (indexOfSub m.matchText ('"' :: m.value.data ++ ['"'])).getD 0
              some
                { range :=
                    ⟨⟨li.1, valueStart⟩, ⟨li.1, valueStart + m.value.length + 2⟩⟩
                  message := "Invalid value \x27" ++ m.value ++ "\x27 for field \x27"
                    ++ m.key ++ "\x27. Expected one of: "
                    ++ String.intercalate ", " enumValues
                  severity := .error
                  source := "KrakenD Schema"
                  code := "invalid-enum-value" }
            else none

/-- Suffix following the first closing delimiter, when one exists (the lazy
`\{\{[\s\S]*?\}\}` body search). -/
def splitAfterClose : List Char → Option (List Char)
  | c1 :: c2 :: rest =>
    if c1 = closeBraceChar && c2 = closeBraceChar then some rest
    else splitAfterClose (c2 :: rest)
  | _ => none

/-- `line.replace(/\{\{[\s\S]*?\}\}/g, '0')`. -/
def replaceActions : Nat → List Char → List Char
  | 0, l => l
  | _ + 1, [] => []
  | fuel + 1, c1 :: rest =>
    if c1 = openBraceChar then
      match rest with
      | c2 :: rest2 =>
        if c2 = openBraceChar then
          match splitAfterClose rest2 with
          | some after => '0' :: replaceActions fuel after
          | none => c1 :: replaceActions fuel rest
        else c1 :: replaceActions fuel rest
      | [] => [c1]
    else c1 :: replaceActions fuel rest

/-- `cleanTemplateLine`: a line that is one whole action becomes `,` or
empty; inline actions become the placeholder `0`; blank results become
empty. -/
def cleanTemplateLine (line : String) : String :=
  let t := trimChars line.data
  let templateOnly := matchesAt t openDelim
    && matchesAt t.reverse closeDelim.reverse && decide (4 ≤ t.length)
  if templateOnly then (if containsSub line.data [','] then "," else "")
  else
    let cleaned : String := ⟨replaceActions (line.length + 1) line.data⟩
    if trimChars cleaned.data = [] then "" else cleaned

/-- `isJsonPropertyLine`: does `"\s*[^"]+"\s*:` occur anywhere? -/
def jsonPropScan : List Char → Bool
  | [] => false
  | '"' :: rest =>
    (let run := rest.takeWhile (· ≠ '"')
     if run = [] then jsonPropScan rest
     else
       match rest.drop run.length with
       | '"' :: r2 =>
         (match skipSpaces r2 with
          | ':' :: _ => true
          | _ => jsonPropScan rest)
       | _ => jsonPropScan rest)
  | _ :: rest => jsonPropScan rest

/-- `isJsonPropertyLine`. -/
def isJsonPropertyLine (line : String) : Bool :=
  jsonPropScan line.data

/-- `lineAllowsNoComma`: the regex `[{\[,]\s*$`. -/
def lineAllowsNoComma (line : String) : Bool :=
  match line.data.reverse.dropWhile isSpaceChar with
  | c :: _ => c = openBraceChar || c = '[' || c = ','
  | [] => false

/-- `findNextNonEmptyLine`, from `start` on. -/
def findNextAux : List String → Nat → Option Nat
  | [], _ => none
  | s :: rest, i => if trimChars s.data ≠ [] then some i else findNextAux rest (i + 1)

/-- `findNextNonEmptyLine(lines, start)` (`-1` as `none`). -/
def findNextNonEmptyLine (lines : List String) (start : Nat) : Option Nat :=
  findNextAux (lines.drop start) start

/-- `s.endsWith(pat)`. -/
def strEndsWith (s pat : String) : Bool :=
  matchesAt s.data.reverse pat.data.reverse

/-- `validateTemplateJsonCommas`: the missing-comma pass, active only for
`.json.tmpl` documents. -/
def validateTemplateJsonCommas (doc : TextDocument) : List Diagnostic :=
  if !(strEndsWith doc.fileName ".json.tmpl") then []
  else
    let rawLines := splitNL (fullText doc).data
    let cleanedLines := rawLines.map cleanTemplateLine
    cleanedLines.enum.filterMap fun li =>
      if li.2.data = [] then none
      else
        let trimmed : String := ⟨trimChars li.2.data⟩
        if trimmed.data = [] || trimmed = "," then none
        else if !(isJsonPropertyLine trimmed) then none
        else if lineAllowsNoComma trimmed then none
        else
          match findNextNonEmptyLine cleanedLines (li.1 + 1) with
          | none => none
          | some nextIndex =>
            let nextLine : String := ⟨trimChars (cleanedLines.getD nextIndex "").data⟩
            if nextLine = "," then none
            else if matchesAt nextLine.data ['"'] then
              some
                { range :=
                    ⟨⟨li.1, (rawLines.getD li.1 "").length - 1⟩,
                     ⟨li.1, (rawLines.getD li.1 "").length⟩⟩
                  message := "Possible missing comma before next JSON property"
                  severity := .error
                  source := "Template JSON"
                  code := "missing-comma" }
            else none

/-- `updateDiagnostics`: the list handed to the diagnostic collection
(documents of another language id leave the collection untouched; modelled
as the empty update). -/
def updateDiagnostics (p : SchemaParser) (doc : TextDocument) : List Diagnostic :=
  if doc.languageId ≠ "gotmpl" then []
  else
    fieldPassDiagnostics p doc ++ validateEnumValues p doc ++ validateTemplateJsonCommas doc

/-! ## Completion provider (`krakenDCompletionProvider.ts`) -/

/-- Completion item kinds in play. -/
inductive CompletionKind where
  | field
  | enumMember
deriving DecidableEq, Repr

/-- A `vscode.CompletionItem` as this provider populates it (the markdown
`documentation` member is display-only UI chrome and is not modelled). -/
structure CompletionItem where
  label : String
  kind : CompletionKind
  detail : String
  sortText : Option String
  filterText : Option String
  insertText : Option String
deriving DecidableEq, Repr

/-- `createFieldCompletionItem`: label, detail, the two-tier sort key
(`!0_name` for required, `!1_name` for optional) and the filter text. -/
def createFieldCompletionItem (field : FieldInfo) (context : String) : CompletionItem :=
  { label := field.name
    kind := .field
    detail := field.type ++ (if field.required then " (required)" else "")
      ++ " - KrakenD " ++ context
    sortText := some ((if field.required then "!0_" else "!1_") ++ field.name)
    filterText := some field.name
    insertText := none }

/-- `getFieldCompletions`: the context's fields whose names contain the
typed partial text (case-insensitive substring), in table order. -/
def getFieldCompletions (p : SchemaParser) (contextType : CtxType)
    (typedFragment : String) : List CompletionItem :=
  ((fieldsForContext p contextType).filter fun field =>
      containsSub (lowerStr field.name).data (lowerStr typedFragment).data).map
    fun field => createFieldCompletionItem field (ctxName contextType)

/-- The anchored pattern `\$(\w+)\.(\w*)$`: variable and partial field at
the end of the text before the cursor. -/
def dotMatchAtEnd (textBefore : List Char) : Option (String × String) :=
  let rev := textBefore.reverse
  let revFrag := rev.takeWhile isWordChar
  match rev.drop revFrag.length with
  | '.' :: r2 =>
    let revVar := r2.takeWhile isWordChar
    if revVar = [] then none
    else
      match r2.drop revVar.length with
      | '$' :: _ => some ((⟨revVar.reverse⟩ : String), (⟨revFrag.reverse⟩ : String))
      | _ => none
  | _ => none

/-- The anchored pattern `"(\w+)":\s*"[^"]*$`: the quoted key whose value
string is still open at the cursor. -/
def jsonEnumMatchAtEnd (textBefore : List Char) : Option String :=
  let rev := textBefore.reverse
  let revVal := rev.takeWhile (· ≠ '"')
  match rev.drop revVal.length with
  | '"' :: r2 =>
    (match skipSpaces r2 with
     | ':' :: r3 =>
       (match r3 with
        | '"' :: r4 =>
          let revKey := r4.takeWhile isWordChar
          if revKey = [] then none
          else
            match r4.drop revKey.length with
            | '"' :: _ => some (⟨revKey.reverse⟩ : String)
            | _ => none
        | _ => none)
     | _ => none)
  | _ => none

/-- `detectEnumContext`. -/
def detectEnumContext (doc : TextDocument) (pos : Position) : Option (CtxType × String) :=
  let line := lineAt doc pos.line
  let textBefore := line.data.take pos.character
  match jsonEnumMatchAtEnd textBefore with
  | none => none
  | some jsonField =>
    let context := analyzeContext doc pos
    if context.type = .unknown then none else some (context.type, jsonField)

/-- `getEnumCompletions`. -/
def getEnumCompletions (p : SchemaParser) (contextType : CtxType) (fieldName : String) :
    List CompletionItem :=
  match getEnumValues p contextType fieldName with
  | none => []
  | some enumValues =>
    if enumValues.length = 0 then []
    else
      enumValues.map fun value =>
        { label := value
          kind := .enumMember
          detail := "Valid " ++ fieldName ++ " value"
          sortText := none
          filterText := none
          insertText := some value }

/-- `provideCompletionItems`: the dot-access path first (suppressed on an
unknown context, falling through to the enum path as in the source), then
the enum-value path, else nothing. -/
def provideCompletionItems (p : SchemaParser) (doc : TextDocument) (pos : Position) :
    Option (List CompletionItem) :=
  let line := lineAt doc pos.line
  let textBefore := line.data.take pos.character
  let dotPart : Option (List CompletionItem) :=
    match dotMatchAtEnd textBefore with
    | some (_, typedFragment) =>
      let templateContext := analyzeContext doc pos
      if templateContext.type = .unknown then none
      else some (getFieldCompletions p templateContext.type typedFragment)
    | none => none
  match dotPart with
  | some items => some items
  | none =>
    match detectEnumContext doc pos with
    | some ce => some (getEnumCompletions p ce.1 ce.2)
    | none => none

/-- The host-side display order of a completion list: ascending `sortText`
(VS Code falls back to the label when no sort text is set).  The insertion
is stable, matching the editor's stable sort. -/
def sortTextKey (item : CompletionItem) : String :=
  item.sortText.getD item.label

/-- Stable insertion by `sortTextKey`. -/
def insertBySortText (x : CompletionItem) : List CompletionItem → List CompletionItem
  | [] => [x]
  | y :: ys =>
    if strLt (sortTextKey y) (sortTextKey x) then y :: insertBySortText x ys
    else x :: y :: ys

/-- Stable sort of a completion list by `sortTextKey`. -/
def sortBySortText (items : List CompletionItem) : List CompletionItem :=
  items.foldr insertBySortText []

/-! ## Concrete artifacts used by witnesses and counterexamples -/

/-- A sample endpoint definition: required `method` with an enum, `url`
with an enum (so the alias copy visibly shares it), and the `backend`
array carrying the reference to the backend definition. -/
def endpointDefn : SchemaProperty :=
  .mk none none none none none
    (some [("method",
             .mk (some (.inl "string")) none none none (some ["GET", "POST", "PUT"])
               none none none none),
           ("url",
             .mk (some (.inl "string")) (some "the url") none none (some ["a", "b"])
               none none none none),
           ("backend",
             .mk (some (.inl "array")) none none none none none
               (some (.mk none none none none none none none
                 (some "#/definitions/backend.json") none)) none none)])
    none none (some ["method"])

/-- A sample backend definition. -/
def backendDefn : SchemaProperty :=
  .mk none none none none none
    (some [("encoding",
             .mk (some (.inl "string")) none none none (some ["json", "xml"])
               none none none none),
           ("url_pattern",
             .mk (some (.inl "string")) none none none none none none none none)])
    none none none

/-- A sample schema document whose references resolve. -/
def sampleSchema : KrakenDSchema :=
  ⟨[("version", .mk (some (.inl "integer")) none none none none none none none none),
    ("endpoints",
      .mk (some (.inl "array")) none none none none none
        (some (.mk none none none none none none none
          (some "#/definitions/endpoint.json") none)) none none)],
   [("endpoint.json", endpointDefn), ("backend.json", backendDefn)]⟩

/-- The store loaded from `sampleSchema`. -/
def sampleParser : SchemaParser :=
  loadSchema (.ok sampleSchema)

/-- The canonical `url` field as `sampleParser` stores it. -/
def sampleUrlInfo : FieldInfo :=
  ⟨"url", "string", "the url", none, some ["a", "b"], false⟩

/-- The alias copy of `url` under its public name. -/
def sampleUrlAlias : FieldInfo :=
  ⟨"endpoint_url", "string", "the url (Custom field: maps to url)", none,
    some ["a", "b"], false⟩

/-! ## Store lemmas -/

/-- A key hit in an association map is a membership witness. -/
theorem mapGet_mem {α : Type} {m : List (String × α)} {k : String} {v : α}
    (h : mapGet m k = some v) : (k, v) ∈ m := by
  induction m with
  | nil => simp [mapGet] at h
  | cons kv rest ih =>
    obtain ⟨k0, v0⟩ := kv
    by_cases hk : k0 = k
    · subst hk
      simp [mapGet] at h
      subst h
      exact List.mem_cons_self _ _
    · simp [mapGet, hk] at h
      exact List.mem_cons_of_mem _ (ih h)

/-- A key is found exactly when some entry carries it. -/
theorem mapGet_isSome_iff {α : Type} (m : List (String × α)) (k : String) :
    (mapGet m k).isSome = true ↔ ∃ v, (k, v) ∈ m := by
  induction m with
  | nil => simp [mapGet]
  | cons kv rest ih =>
    obtain ⟨k0, v0⟩ := kv
    by_cases hk : k0 = k
    · subst hk
      simp [mapGet]
    · simp [mapGet, hk, ih, eq_comm (a := k) (b := k0), hk]

/-- The alias loop succeeds exactly when some mapping pair has the queried
public name and a present canonical field. -/
theorem aliasLookup_isSome_iff (pairs : List (String × String))
    (get : String → Option FieldInfo) (fieldName : String) :
    (aliasLookup pairs get fieldName).isSome = true ↔
      ∃ pr ∈ pairs, pr.2 = fieldName ∧ (get pr.1).isSome = true := by
  induction pairs with
  | nil => simp [aliasLookup]
  | cons pr0 rest ih =>
    obtain ⟨original, mapped⟩ := pr0
    by_cases hm : mapped = fieldName
    · subst hm
      cases hget : get original with
      | some f => simp [aliasLookup, hget]
      | none => simp [aliasLookup, hget, ih]
    · simp [aliasLookup, hm, ih]

/-- `getFieldInfo` succeeds exactly when the canonical lookup or the alias
loop does. -/
theorem getFieldInfo_isSome_iff (p : SchemaParser) (c : CtxType) (n : String) :
    (getFieldInfo p c n).isSome = true ↔
      (mapGet (contextMap p c) n).isSome = true ∨
      (aliasLookup fieldMappings (mapGet (contextMap p c)) n).isSome = true := by
  unfold getFieldInfo
  cases h : mapGet (contextMap p c) n <;> simp [h]

/-- C9: on an I/O or parse failure the load leaves the empty store, and
every query answers empty or absent instead of raising. -/
theorem C9_load_failure_empty_store (e : String) (ctx : CtxType) (name : String) :
    loadSchema (.error e) = SchemaParser.empty ∧
    getRootFields (loadSchema (.error e)) = [] ∧
    getEndpointFields (loadSchema (.error e)) = [] ∧
    getBackendFields (loadSchema (.error e)) = [] ∧
    getFieldInfo (loadSchema (.error e)) ctx name = none ∧
    isValidField (loadSchema (.error e)) ctx name = false ∧
    getEnumValues (loadSchema (.error e)) ctx name = none := by
  have hinfo : getFieldInfo (loadSchema (.error e)) ctx name = none := by
    cases ctx <;>
      simp [getFieldInfo, loadSchema, SchemaParser.empty, contextMap, mapGet,
        aliasLookup, fieldMappings]
  refine ⟨rfl, rfl, rfl, rfl, hinfo, ?_, ?_⟩
  · simp [isValidField, hinfo]
  · simp [getEnumValues, hinfo]

/-- C10: every context other than `endpoint`/`backend` — only `unknown`
remains — selects the root table, and validity against it holds exactly
for a root field name or an alias mapping to a present root field;
`unknown` is not rejected at the store interface. -/
theorem C10_unknown_context_reads_root (p : SchemaParser) (name : String) :
    contextMap p .unknown = p.rootFields ∧
    (isValidField p .unknown name = true ↔
      (∃ v, (name, v) ∈ p.rootFields) ∨
      ∃ pr ∈ fieldMappings, pr.2 = name ∧ ∃ v, (pr.1, v) ∈ p.rootFields) := by
  refine ⟨rfl, ?_⟩
  rw [isValidField, getFieldInfo_isSome_iff]
  have hroot : contextMap p .unknown = p.rootFields := rfl
  rw [hroot, aliasLookup_isSome_iff, mapGet_isSome_iff]
  constructor
  · rintro (h | ⟨pr, hpr, hname, hsome⟩)
    · exact Or.inl h
    · exact Or.inr ⟨pr, hpr, hname, (mapGet_isSome_iff _ _).mp hsome⟩
  · rintro (h | ⟨pr, hpr, hname, hsome⟩)
    · exact Or.inl h
    · exact Or.inr ⟨pr, hpr, hname, (mapGet_isSome_iff _ _).mpr hsome⟩

/-- C3: when the endpoint table stores a canonical `url` and no literal
`endpoint_url`, the alias resolves, and the returned info reports the
canonical field's `required` and `enum` unchanged. -/
theorem C3_alias_reports_canonical_metadata (p : SchemaParser) (u : FieldInfo)
    (hurl : mapGet p.endpointFields "url" = some u)
    (hfresh : mapGet p.endpointFields "endpoint_url" = none) :
    isValidField p .endpoint "endpoint_url" = true ∧
    (getFieldInfo p .endpoint "endpoint_url").map FieldInfo.required = some u.required ∧
    (getFieldInfo p .endpoint "endpoint_url").map FieldInfo.enum = some u.enum := by
  have hres : getFieldInfo p .endpoint "endpoint_url"
      = some (aliasCopy u "endpoint_url" "url") := by
    simp [getFieldInfo, contextMap, hfresh, fieldMappings, aliasLookup, hurl]
  refine ⟨?_, ?_, ?_⟩ <;> simp [isValidField, hres, aliasCopy]

/-- Witness for C3 on the sample store. -/
theorem C3_alias_witness :
    isValidField sampleParser .endpoint "endpoint_url" = true ∧
    (getFieldInfo sampleParser .endpoint "endpoint_url").map FieldInfo.required
      = some sampleUrlInfo.required ∧
    (getFieldInfo sampleParser .endpoint "endpoint_url").map FieldInfo.enum
      = some sampleUrlInfo.enum :=
  C3_alias_reports_canonical_metadata sampleParser sampleUrlInfo (by decide) (by decide)

/-! ## Round-trip machinery for C8 -/

/-- The invariant the parser maintains: every table entry is keyed by the
name stored in its `FieldInfo`. -/
def KeyedByName (m : List (String × FieldInfo)) : Prop :=
  ∀ kf ∈ m, (kf.2 : FieldInfo).name = kf.1

theorem keyedByName_nil : KeyedByName [] := by
  intro kf h
  simp at h

theorem keyedByName_mapSet {m : List (String × FieldInfo)} {k : String} {v : FieldInfo}
    (hm : KeyedByName m) (hv : v.name = k) : KeyedByName (mapSet m k v) := by
  induction m with
  | nil =>
    intro kf hkf
    simp [mapSet] at hkf
    subst hkf
    exact hv
  | cons kv rest ih =>
    obtain ⟨k0, v0⟩ := kv
    intro kf hkf
    by_cases hk : k0 = k
    · subst hk
      simp [mapSet] at hkf
      rcases hkf with h | h
      · subst h; exact hv
      · exact hm kf (List.mem_cons_of_mem _ h)
    · simp [mapSet, hk] at hkf
      rcases hkf with h | h
      · subst h; exact hm (k0, v0) (List.mem_cons_self _ _)
      · exact ih (fun kf2 h2 => hm kf2 (List.mem_cons_of_mem _ h2)) kf h

theorem keyedByName_parseFields (props : List (String × SchemaProperty))
    (target : List (String × FieldInfo)) (req : List String)
    (htarget : KeyedByName target) : KeyedByName (parseFields props target req) := by
  induction props generalizing target with
  | nil => exact htarget
  | cons kp rest ih =>
    have hstep : parseFields (kp :: rest) target req
        = parseFields rest
            (mapSet target kp.1
              { name := kp.1
                type := getTypeString kp.2
                description := (kp.2.description.getD (kp.2.title.getD ""))
                default := kp.2.default
                enum := kp.2.enum
                required := req.contains kp.1 }) req := rfl
    rw [hstep]
    exact ih _ (keyedByName_mapSet htarget rfl)

/-- Every table `loadSchema` can produce is keyed by name. -/
theorem loadSchema_keyed (input : Except String KrakenDSchema) (ctx : CtxType) :
    KeyedByName (contextMap (loadSchema input) ctx) := by
  cases input with
  | error e => cases ctx <;> exact keyedByName_nil
  | ok s =>
    cases ctx <;>
      · simp only [loadSchema, parseSchemaStore, contextMap]
        repeat' split
        all_goals
          first
            | exact keyedByName_nil
            | exact keyedByName_parseFields _ _ _ keyedByName_nil

/-- Membership in the canonical part of a keyed table makes the name a
valid key. -/
theorem mapGet_isSome_of_mem_values {m : List (String × FieldInfo)} {f : FieldInfo}
    (hkey : KeyedByName m) (hf : f ∈ m.map Prod.snd) :
    (mapGet m f.name).isSome = true := by
  rcases List.mem_map.mp hf with ⟨kf, hkf, hsnd⟩
  have h1 : kf.1 = f.name := by
    have h2 := hkey kf hkf
    rw [hsnd] at h2
    exact h2.symm
  refine (mapGet_isSome_iff m f.name).mpr ⟨f, ?_⟩
  have hkf2 : kf = (f.name, f) := by
    obtain ⟨a, b⟩ := kf
    simp only [Prod.mk.injEq]
    exact ⟨h1, hsnd⟩
  rw [← hkf2]
  exact hkf

/-- Membership among the appended alias entries makes the public name pass
the alias loop. -/
theorem aliasLookup_isSome_of_mem_alias {m : List (String × FieldInfo)} {f : FieldInfo}
    (hkey : KeyedByName m) (hf : f ∈ aliasEntriesOf m) :
    (aliasLookup fieldMappings (mapGet m) f.name).isSome = true := by
  rcases List.mem_filterMap.mp hf with ⟨f0, hf0, hmk⟩
  rcases Option.map_eq_some'.mp hmk with ⟨mapped, hget, hcopy⟩
  have hname : f.name = mapped := by rw [← hcopy]; rfl
  refine (aliasLookup_isSome_iff _ _ _).mpr
    ⟨(f0.name, mapped), mapGet_mem hget, by simpa using hname.symm, ?_⟩
  exact mapGet_isSome_of_mem_values hkey hf0

/-- C8: every field returned by the per-shape `getFields` — canonical
entries and appended alias entries alike — validates back through
`isValidField` for the same shape. -/
theorem C8_get_fields_round_trip (input : Except String KrakenDSchema) (ctx : CtxType)
    (f : FieldInfo) (hmem : f ∈ fieldsForContext (loadSchema input) ctx) :
    isValidField (loadSchema input) ctx f.name = true := by
  have hkey : KeyedByName (contextMap (loadSchema input) ctx) := loadSchema_keyed input ctx
  rw [isValidField, getFieldInfo_isSome_iff]
  cases ctx with
  | endpoint =>
    rcases List.mem_append.mp hmem with h | h
    · exact Or.inl (mapGet_isSome_of_mem_values hkey h)
    · exact Or.inr (aliasLookup_isSome_of_mem_alias hkey h)
  | backend =>
    rcases List.mem_append.mp hmem with h | h
    · exact Or.inl (mapGet_isSome_of_mem_values hkey h)
    · exact Or.inr (aliasLookup_isSome_of_mem_alias hkey h)
  | unknown =>
    exact Or.inl (mapGet_isSome_of_mem_values hkey hmem)

/-- Witness for C8: an appended alias entry of the sample store round-trips. -/
theorem C8_round_trip_witness :
    sampleUrlAlias ∈ fieldsForContext (loadSchema (.ok sampleSchema)) .endpoint ∧
    isValidField (loadSchema (.ok sampleSchema)) .endpoint sampleUrlAlias.name = true :=
  ⟨by decide, C8_get_fields_round_trip (.ok sampleSchema) .endpoint sampleUrlAlias (by decide)⟩

/-! ## Context resolution at column 0, and the enum pass (C1) -/

/-- At a line's first column the text before the cursor is empty, so no
opening delimiter precedes the cursor and `analyzeContext` answers
`unknown` — for every document and every line. -/
theorem analyzeContext_col0 (doc : TextDocument) (l : Nat) :
    analyzeContext doc ⟨l, 0⟩ = ⟨.unknown, none, none⟩ := rfl

/-- The document of the specification's enum test: a resolvable iteration
binding followed by a key/value line whose value is outside the enum. -/
def enumBugDoc : TextDocument :=
  ⟨"gotmpl", "config.json.tmpl",
   ["\x7b\x7b range $e := .endpoints \x7d\x7d", "\"method\": \"GETT\""]⟩

/-- C1 (the code side of the bug): the scenario is exactly the claimed one —
the key/value line matches with key `method` and value `GETT`, the loaded
store carries the non-empty enum, and the value is not a member — yet
`validateEnumValues` emits nothing; in fact it emits nothing on any
document whatsoever, because it resolves context at column 0, where
`analyzeContext` always answers `unknown`. -/
theorem C1_enum_pass_never_fires :
    ((jsonValueMatches ((lineAt enumBugDoc 1).length + 1) (lineAt enumBugDoc 1).data 0).map
        fun m => (m.key, m.value)) = [("method", "GETT")] ∧
    getEnumValues sampleParser .endpoint "method" = some ["GET", "POST", "PUT"] ∧
    (["GET", "POST", "PUT"] : List String).contains "GETT" = false ∧
    validateEnumValues sampleParser enumBugDoc = [] ∧
    ∀ (p : SchemaParser) (doc : TextDocument), validateEnumValues p doc = [] := by
  refine ⟨by decide, by decide, by decide, by decide, ?_⟩
  intro p doc
  unfold validateEnumValues
  refine List.flatMap_eq_nil_iff.mpr ?_
  intro li _
  refine List.filterMap_eq_nil_iff.mpr ?_
  intro m _
  simp [analyzeContext_col0]

/-! ## Unknown-context suppression (C2) -/

/-- C2: an occurrence whose context resolves to `unknown` contributes no
unknown-field diagnostic, and a cursor whose context resolves to `unknown`
receives no completion candidates (the completion path falls through the
enum path, which re-resolves the same context). -/
theorem C2_unknown_suppresses_validation_and_completion :
    (∀ (p : SchemaParser) (doc : TextDocument) (ref : FieldRef),
      (analyzeContext doc (positionAt doc ref.start)).type = .unknown →
      checkFieldRef p doc ref = none) ∧
    (∀ (p : SchemaParser) (doc : TextDocument) (pos : Position),
      (analyzeContext doc pos).type = .unknown →
      provideCompletionItems p doc pos = none) := by
  constructor
  · intro p doc ref h
    simp [checkFieldRef, h]
  · intro p doc pos h
    simp only [provideCompletionItems, detectEnumContext]
    cases hdot : dotMatchAtEnd ((lineAt doc pos.line).data.take pos.character) <;>
      cases hjson : jsonEnumMatchAtEnd ((lineAt doc pos.line).data.take pos.character) <;>
        simp [hdot, hjson, h]

/-- A document whose lone field reference sits in a context no heuristic
can classify. -/
def plainRefDoc : TextDocument :=
  ⟨"gotmpl", "a.tmpl", ["\x7b\x7b $x.zzz \x7d\x7d"]⟩

/-- Witness for C2: the unresolvable reference `$x.zzz` (an invalid field
name in every schema shape) produces neither a diagnostic nor candidates. -/
theorem C2_unknown_suppression_witness :
    checkFieldRef sampleParser plainRefDoc ⟨3, "x", "zzz"⟩ = none ∧
    provideCompletionItems sampleParser plainRefDoc ⟨0, 3⟩ = none :=
  ⟨C2_unknown_suppresses_validation_and_completion.1 sampleParser plainRefDoc
      ⟨3, "x", "zzz"⟩ (by decide),
   C2_unknown_suppresses_validation_and_completion.2 sampleParser plainRefDoc
      ⟨0, 3⟩ (by decide)⟩

/-! ## Structural binding beats the naming heuristic (C4) -/

/-- The specification's endpoint iteration example; column 41 is the end of
the `$e.method` occurrence. -/
def rangeEndpointDoc : TextDocument :=
  ⟨"gotmpl", "a.tmpl",
   ["\x7b\x7b range $e := .endpoints \x7d\x7d \x7b\x7b $e.method \x7d\x7d \x7b\x7b end \x7d\x7d"]⟩

/-- The specification's backend iteration example; column 42 is the end of
the `$b.encoding` occurrence. -/
def rangeBackendDoc : TextDocument :=
  ⟨"gotmpl", "a.tmpl",
   ["\x7b\x7b range $b := .backends \x7d\x7d \x7b\x7b $b.encoding \x7d\x7d \x7b\x7b end \x7d\x7d"]⟩

/-- C4: the two specification examples classify as `endpoint` and
`backend`, and in general, whenever an expression is being resolved (a
variable was extracted) and the window scan classifies from the nearest
iteration binding, that classification is the answer — the variable-name
heuristic is consulted only when the scan answers `unknown`. -/
theorem C4_structural_binding_wins :
    (analyzeContext rangeEndpointDoc ⟨0, 41⟩).type = .endpoint ∧
    (analyzeContext rangeBackendDoc ⟨0, 42⟩).type = .backend ∧
    ∀ (doc : TextDocument) (pos : Position) (v : String),
      (analyzeContext doc pos).variableName = some v →
      inferContextFromSurrounding doc pos ≠ .unknown →
      (analyzeContext doc pos).type = inferContextFromSurrounding doc pos := by
  refine ⟨by decide, by decide, ?_⟩
  intro doc pos v hv hinf
  simp only [analyzeContext] at hv ⊢
  cases h1 : lastIndexOfSub ((lineAt doc pos.line).data.take pos.character) openDelim with
  | none => simp [h1] at hv
  | some lastOpen =>
    simp only [h1] at hv ⊢
    cases h3 : findVarMatch
        ((trimChars (((lineAt doc pos.line).data.take pos.character).drop (lastOpen + 2))).length + 1)
        (trimChars (((lineAt doc pos.line).data.take pos.character).drop (lastOpen + 2))) with
    | none =>
      cases h2 : lastIndexOfSub ((lineAt doc pos.line).data.take pos.character) closeDelim <;>
        simp [h2, h3] at hv
    | some vf =>
      cases h2 : lastIndexOfSub ((lineAt doc pos.line).data.take pos.character) closeDelim <;>
        · simp only [h2, h3] at hv ⊢
          split at hv <;> split <;> simp_all

/-- Witness for C4: at the `$e.method` occurrence the variable `e` is
extracted, the window scan classifies, and the answer is the scan's. -/
theorem C4_structural_binding_witness :
    (analyzeContext rangeEndpointDoc ⟨0, 41⟩).type
      = inferContextFromSurrounding rangeEndpointDoc ⟨0, 41⟩ :=
  C4_structural_binding_wins.2.2 rangeEndpointDoc ⟨0, 41⟩ "e" (by decide) (by decide)

/-! ## The missing-comma pass (C6) -/

/-- The two-line documents of the specification's missing-comma test. -/
def commaDoc (firstLine : String) : TextDocument :=
  ⟨"gotmpl", "config.json.tmpl", [firstLine, "\"b\": 2"]⟩

/-- C6: consecutive raw property lines `"a": 1` and `"b": 2` in a
`.json.tmpl` document produce exactly one `missing-comma` error spanning
the last character of the first line; a first line ending in a comma,
open-brace or open-bracket produces none. -/
theorem C6_missing_comma_pass :
    validateTemplateJsonCommas (commaDoc "\"a\": 1")
      = [{ range := ⟨⟨0, 5⟩, ⟨0, 6⟩⟩
           message := "Possible missing comma before next JSON property"
           severity := .error
           source := "Template JSON"
           code := "missing-comma" }] ∧
    validateTemplateJsonCommas (commaDoc "\"a\": 1,") = [] ∧
    validateTemplateJsonCommas (commaDoc "\"a\": \x7b") = [] ∧
    validateTemplateJsonCommas (commaDoc "\"a\": [") = [] := by
  refine ⟨by decide, by decide, by decide, by decide⟩

/-! ## Suggestion ranking (C5) -/

/-- The case-insensitive edit distance the suggestion pass computes. -/
def levD (fieldName s : String) : Nat :=
  levenshteinDistance (lowerStr fieldName) (lowerStr s)

/-- The suggestion list a diagnostic carries: `suggestions.slice(0, 3)`. -/
def diagnosticSuggestions (p : SchemaParser) (contextType : CtxType) (fieldName : String) :
    List String :=
  (findSimilarFields p contextType fieldName).take 3

/-- The order the specification asserts for suggestions: ascending
distance, name order on ties. -/
def claimedSuggestionOrder (fieldName : String) (l : List String) : Prop :=
  List.Pairwise
    (fun s t => levD fieldName s < levD fieldName t ∨
      (levD fieldName s = levD fieldName t ∧ strLt t s = false)) l

theorem mem_insertByDist {y x : String × Nat} {l : List (String × Nat)} :
    y ∈ insertByDist x l ↔ y = x ∨ y ∈ l := by
  induction l with
  | nil => simp [insertByDist]
  | cons z zs ih =>
    by_cases h : z.2 < x.2
    · simp [insertByDist, h, ih]
      tauto
    · simp [insertByDist, h]

theorem mem_sortByDist {y : String × Nat} {l : List (String × Nat)} :
    y ∈ sortByDist l ↔ y ∈ l := by
  induction l with
  | nil => simp [sortByDist]
  | cons z zs ih =>
    show y ∈ insertByDist z (sortByDist zs) ↔ _
    rw [mem_insertByDist]
    simp [ih]

theorem sorted_insertByDist {x : String × Nat} {l : List (String × Nat)}
    (h : List.Pairwise (fun a b => a.2 ≤ b.2) l) :
    List.Pairwise (fun a b => a.2 ≤ b.2) (insertByDist x l) := by
  induction l with
  | nil => simp [insertByDist]
  | cons z zs ih =>
    rcases List.pairwise_cons.mp h with ⟨hz, hzs⟩
    by_cases hlt : z.2 < x.2
    · simp only [insertByDist, hlt, if_true]
      refine List.pairwise_cons.mpr ⟨?_, ih hzs⟩
      intro b hb
      rcases mem_insertByDist.mp hb with rfl | hb
      · exact Nat.le_of_lt hlt
      · exact hz b hb
    · simp only [insertByDist, hlt, if_false]
      refine List.pairwise_cons.mpr ⟨?_, h⟩
      intro b hb
      rcases List.mem_cons.mp hb with rfl | hb
      · exact Nat.le_of_not_lt hlt
      · exact Nat.le_trans (Nat.le_of_not_lt hlt) (hz b hb)

theorem sorted_sortByDist (l : List (String × Nat)) :
    List.Pairwise (fun a b => a.2 ≤ b.2) (sortByDist l) := by
  induction l with
  | nil => simp [sortByDist]
  | cons z zs ih => exact sorted_insertByDist ih

/-- Stability of one insertion, phrased through filtering at a fixed
distance: the inserted pair lands before every pair of its own distance
class already present, and other classes are untouched. -/
theorem filter_insertByDist (x : String × Nat) (l : List (String × Nat)) (d : Nat) :
    (insertByDist x l).filter (fun pr => pr.2 = d)
      = if x.2 = d then x :: l.filter (fun pr => pr.2 = d)
        else l.filter (fun pr => pr.2 = d) := by
  induction l with
  | nil => by_cases hx : x.2 = d <;> simp [insertByDist, hx]
  | cons z zs ih =>
    by_cases hz : z.2 < x.2
    · rw [show insertByDist x (z :: zs) = z :: insertByDist x zs from by
        simp [insertByDist, hz]]
      by_cases hx : x.2 = d
      · have hzd : ¬ z.2 = d := by omega
        simp [List.filter_cons, hzd, hx, ih]
      · by_cases hzd : z.2 = d <;> simp [List.filter_cons, hzd, hx, ih]
    · rw [show insertByDist x (z :: zs) = x :: z :: zs from by
        simp [insertByDist, hz]]
      by_cases hx : x.2 = d <;> by_cases hzd : z.2 = d <;>
        simp [List.filter_cons, hx, hzd]

/-- Stability of the whole sort: each distance class keeps its original
order. -/
theorem filter_sortByDist (l : List (String × Nat)) (d : Nat) :
    (sortByDist l).filter (fun pr => pr.2 = d) = l.filter (fun pr => pr.2 = d) := by
  induction l with
  | nil => simp [sortByDist]
  | cons z zs ih =>
    show (insertByDist z (sortByDist zs)).filter _ = _
    rw [filter_insertByDist]
    by_cases hz : z.2 = d <;> simp [List.filter_cons, hz, ih]

/-- What the suggestion machinery actually computes: at most three names,
each within edit distance 3 of the invalid name, in ascending distance
order; ties keep the field-table order (the sort is stable), not name
order. -/
theorem suggestions_ranked_stable (p : SchemaParser) (ctx : CtxType) (fieldName : String) :
    (diagnosticSuggestions p ctx fieldName).length ≤ 3 ∧
    (∀ s ∈ diagnosticSuggestions p ctx fieldName, levD fieldName s ≤ 3) ∧
    List.Pairwise (fun s t => levD fieldName s ≤ levD fieldName t)
      (diagnosticSuggestions p ctx fieldName) ∧
    (∀ d : Nat,
      (findSimilarFields p ctx fieldName).filter (fun s => levD fieldName s = d)
        = if d ≤ 3 then
            ((fieldsForContext p ctx).filter fun f => levD fieldName f.name = d).map
              FieldInfo.name
          else []) := by
  have hsim : findSimilarFields p ctx fieldName
      = (sortByDist (((fieldsForContext p ctx).map fun f =>
          (f.name, levD fieldName f.name)).filter fun pr => pr.2 ≤ 3)).map Prod.fst := rfl
  have hinv : ∀ pr ∈ sortByDist (((fieldsForContext p ctx).map fun f =>
      (f.name, levD fieldName f.name)).filter fun pr => pr.2 ≤ 3),
      pr.2 = levD fieldName pr.1 := by
    intro pr hpr
    have h1 := mem_sortByDist.mp hpr
    have h2 := List.mem_of_mem_filter h1
    rcases List.mem_map.mp h2 with ⟨f, _, rfl⟩
    rfl
  have hle3 : ∀ pr ∈ sortByDist (((fieldsForContext p ctx).map fun f =>
      (f.name, levD fieldName f.name)).filter fun pr => pr.2 ≤ 3), pr.2 ≤ 3 := by
    intro pr hpr
    have h1 := List.of_mem_filter (mem_sortByDist.mp hpr)
    simpa using h1
  refine ⟨?_, ?_, ?_, ?_⟩
  · exact List.length_take_le _ _
  · intro s hs
    have h1 : s ∈ findSimilarFields p ctx fieldName :=
      List.take_subset _ _ hs
    rw [hsim] at h1
    rcases List.mem_map.mp h1 with ⟨pr, hpr, rfl⟩
    rw [← hinv pr hpr]
    exact hle3 pr hpr
  · have hsorted := sorted_sortByDist (((fieldsForContext p ctx).map fun f =>
      (f.name, levD fieldName f.name)).filter fun pr => pr.2 ≤ 3)
    have h2 : List.Pairwise (fun a b : String × Nat =>
        levD fieldName a.1 ≤ levD fieldName b.1)
        (sortByDist (((fieldsForContext p ctx).map fun f =>
          (f.name, levD fieldName f.name)).filter fun pr => pr.2 ≤ 3)) := by
      refine hsorted.imp_of_mem ?_
      intro a b ha hb hab
      rw [← hinv a ha, ← hinv b hb]
      exact hab
    have h3 : List.Pairwise (fun s t => levD fieldName s ≤ levD fieldName t)
        ((sortByDist (((fieldsForContext p ctx).map fun f =>
          (f.name, levD fieldName f.name)).filter fun pr => pr.2 ≤ 3)).map Prod.fst) :=
      (List.pairwise_map).mpr h2
    rw [← hsim] at h3
    exact h3.sublist (List.take_sublist 3 _)
  · intro d
    rw [hsim, List.filter_map]
    have hcongr : (sortByDist (((fieldsForContext p ctx).map fun f =>
        (f.name, levD fieldName f.name)).filter fun pr => pr.2 ≤ 3)).filter
          ((fun s => decide (levD fieldName s = d)) ∘ Prod.fst)
        = (sortByDist (((fieldsForContext p ctx).map fun f =>
            (f.name, levD fieldName f.name)).filter fun pr => pr.2 ≤ 3)).filter
          (fun pr => pr.2 = d) := by
      refine List.filter_congr ?_
      intro pr hpr
      simp [Function.comp, hinv pr hpr]
    rw [hcongr, filter_sortByDist, List.filter_filter]
    by_cases hd : d ≤ 3
    · rw [if_pos hd]
      have heq : ((fieldsForContext p ctx).map fun f =>
          (f.name, levD fieldName f.name)).filter
            (fun a => decide (a.2 = d) && decide (a.2 ≤ 3))
          = ((fieldsForContext p ctx).map fun f =>
              (f.name, levD fieldName f.name)).filter (fun a => a.2 = d) := by
        refine List.filter_congr ?_
        intro a _
        by_cases h : a.2 = d
        · simp [h, hd]
        · simp [h]
      rw [heq, List.filter_map, List.map_map]
      rfl
    · rw [if_neg hd]
      have heq : ((fieldsForContext p ctx).map fun f =>
          (f.name, levD fieldName f.name)).filter
            (fun a => decide (a.2 = d) && decide (a.2 ≤ 3)) = [] := by
        refine List.filter_eq_nil_iff.mpr ?_
        intro a _
        by_cases h : a.2 = d
        · simp [h]
          omega
        · simp [h]
      rw [heq]
      rfl

instance (fieldName : String) (l : List String) :
    Decidable (claimedSuggestionOrder fieldName l) := by
  unfold claimedSuggestionOrder
  infer_instance

/-- The tie-order store: two endpoint fields at equal distance from the
probe, stored in an order that is not name order. -/
def tieParser : SchemaParser :=
  ⟨none,
   [("ab", ⟨"ab", "string", "", none, none, false⟩),
    ("aa", ⟨"aa", "string", "", none, none, false⟩)],
   [], []⟩

/-- On ties the helper keeps table order, not the specification's name
order: both candidates sit at distance 1 from `ac`, yet the suggestions
come out in field-table order `ab, aa`. -/
theorem suggestions_tie_keeps_table_order :
    levD "ac" "ab" = 1 ∧ levD "ac" "aa" = 1 ∧
    diagnosticSuggestions tieParser .endpoint "ac" = ["ab", "aa"] ∧
    ¬ claimedSuggestionOrder "ac" (diagnosticSuggestions tieParser .endpoint "ac") := by
  refine ⟨by decide, by decide, by decide, by decide⟩

/-! ## Completion ranking (C7) -/

theorem listLtChar_prepend (p a b : List Char) :
    listLtChar (p ++ a) (p ++ b) = listLtChar a b := by
  induction p with
  | nil => rfl
  | cons c cs ih => simp [listLtChar, lt_irrefl, ih]

theorem listLtChar_tiers (x y : List Char) :
    listLtChar ('!' :: '0' :: '_' :: x) ('!' :: '1' :: '_' :: y) = true := by
  show listLtChar _ _ = true
  rw [listLtChar, if_neg (lt_irrefl '!'), if_neg (lt_irrefl '!')]
  rw [listLtChar, if_pos (by decide : ('0' : Char) < '1')]

theorem insertBySortText_perm (x : CompletionItem) (l : List CompletionItem) :
    (insertBySortText x l).Perm (x :: l) := by
  induction l with
  | nil => exact List.Perm.refl _
  | cons y ys ih =>
    by_cases h : strLt (sortTextKey y) (sortTextKey x) = true
    · simp only [insertBySortText, h, if_true]
      exact ((ih.cons y).trans (List.Perm.swap x y ys))
    · simp only [insertBySortText, h, if_false]
      exact List.Perm.refl _

theorem sortBySortText_perm (items : List CompletionItem) :
    (sortBySortText items).Perm items := by
  induction items with
  | nil => exact List.Perm.refl _
  | cons x xs ih =>
    show (insertBySortText x (sortBySortText xs)).Perm _
    exact (insertBySortText_perm x (sortBySortText xs)).trans (ih.cons x)

/-- C7 (amended): completion returns exactly the fields whose names contain
the typed text as a case-insensitive substring, in schema table order; the
attached two-tier sort key makes every required field sort before every
optional one, but within a tier it orders by field name, not table order;
the host's sortText ordering is a permutation of the returned list. -/
theorem C7_field_completion_order (p : SchemaParser) (ctx : CtxType) (typed : String) :
    (getFieldCompletions p ctx typed).map CompletionItem.label
      = ((fieldsForContext p ctx).filter fun f =>
          containsSub (lowerStr f.name).data (lowerStr typed).data).map FieldInfo.name ∧
    (∀ (f g : FieldInfo) (c c' : String), f.required = true → g.required = false →
      strLt (sortTextKey (createFieldCompletionItem f c))
        (sortTextKey (createFieldCompletionItem g c')) = true) ∧
    (∀ (f g : FieldInfo) (c c' : String), f.required = g.required →
      strLt (sortTextKey (createFieldCompletionItem f c))
        (sortTextKey (createFieldCompletionItem g c')) = strLt f.name g.name) ∧
    (∀ items : List CompletionItem, (sortBySortText items).Perm items) := by
  refine ⟨?_, ?_, ?_, sortBySortText_perm⟩
  · rw [getFieldCompletions, List.map_map]
    rfl
  · intro f g c c' hf hg
    simp only [sortTextKey, createFieldCompletionItem, hf, hg, if_true, if_false,
      Option.getD_some]
    show listLtChar _ _ = true
    exact listLtChar_tiers f.name.data g.name.data
  · intro f g c c' hfg
    cases hf : f.required with
    | true =>
      have hg : g.required = true := by rw [← hfg, hf]
      simp only [sortTextKey, createFieldCompletionItem, hf, hg, if_true, Option.getD_some]
      show listLtChar (('!' :: '0' :: '_' :: []) ++ f.name.data)
          (('!' :: '0' :: '_' :: []) ++ g.name.data) = strLt f.name g.name
      rw [listLtChar_prepend]
      rfl
    | false =>
      have hg : g.required = false := by rw [← hfg, hf]
      simp only [sortTextKey, createFieldCompletionItem, hf, hg, if_false, Option.getD_some]
      show listLtChar (('!' :: '1' :: '_' :: []) ++ f.name.data)
          (('!' :: '1' :: '_' :: []) ++ g.name.data) = strLt f.name g.name
      rw [listLtChar_prepend]
      rfl

/-- A store whose two endpoint fields are both required and stored in an
order that is not name order. -/
def reqOrderParser : SchemaParser :=
  ⟨none,
   [("b", ⟨"b", "string", "", none, none, true⟩),
    ("a", ⟨"a", "string", "", none, none, true⟩)],
   [], []⟩

/-- Counterexample for C7 as stated: both matching fields are required, so
the claimed order (groups keep schema property order) predicts `b, a`, but
the sortText ordering the items carry yields `a, b`. -/
theorem C7_schema_order_counterexample :
    ((fieldsForContext reqOrderParser .endpoint).filter fun f => f.required).map
        FieldInfo.name = ["b", "a"] ∧
    (sortBySortText (getFieldCompletions reqOrderParser .endpoint "")).map
        CompletionItem.label = ["a", "b"] ∧
    (["a", "b"] : List String) ≠ ["b", "a"] := by
  refine ⟨by decide, by decide, by decide⟩

/-- The suggestion machinery on the specification's own example: `methdo`
against the endpoint shape computes the suggestion `method`, within the
distance bound. -/
theorem suggestions_example_methdo :
    (diagnosticSuggestions sampleParser .endpoint "methdo").length ≤ 3 ∧
    levD "methdo" "method" ≤ 3 ∧
    diagnosticSuggestions sampleParser .endpoint "methdo" = ["method"] :=
  ⟨(suggestions_ranked_stable sampleParser .endpoint "methdo").1,
   (suggestions_ranked_stable sampleParser .endpoint "methdo").2.1 "method" (by decide),
   by decide⟩

/-- The required `method` field as `sampleParser` stores it. -/
def sampleMethodInfo : FieldInfo :=
  ⟨"method", "string", "", none, some ["GET", "POST", "PUT"], true⟩

/-- Witness for C7: the required `method` sorts before the optional `url`,
and two optional fields compare by name. -/
theorem C7_field_completion_witness :
    strLt (sortTextKey (createFieldCompletionItem sampleMethodInfo "endpoint"))
      (sortTextKey (createFieldCompletionItem sampleUrlInfo "endpoint")) = true ∧
    strLt (sortTextKey (createFieldCompletionItem sampleUrlInfo "endpoint"))
        (sortTextKey (createFieldCompletionItem sampleUrlAlias "endpoint"))
      = strLt sampleUrlInfo.name sampleUrlAlias.name :=
  ⟨(C7_field_completion_order sampleParser .endpoint "").2.1 sampleMethodInfo
      sampleUrlInfo "endpoint" "endpoint" (by decide) (by decide),
   (C7_field_completion_order sampleParser .endpoint "").2.2.1 sampleUrlInfo
      sampleUrlAlias "endpoint" "endpoint" (by decide)⟩

/-! ## The unknown-field pass is dead (C5) -/

/-- The specification's unknown-field scenario: inside an endpoint
iteration, `$e.methdo` misspells the existing `method` field; column 41 is
the end of the occurrence. -/
def methdoDoc : TextDocument :=
  ⟨"gotmpl", "a.tmpl",
   ["\x7b\x7b range $e := .endpoints \x7d\x7d \x7b\x7b $e.methdo \x7d\x7d \x7b\x7b end \x7d\x7d"]⟩

/-- C5 (the code side of the bug): the scenario is exactly the claimed one —
the pass finds the `$e.methdo` occurrence, `methdo` is invalid for the
endpoint shape, and the suggestion machinery would offer `method` — yet no
unknown-field diagnostic is emitted.  The pass probes `analyzeContext` at
the matched dollar offset, where only the opening delimiter and whitespace
precede the cursor, so no `$variable` expression is extracted and the
context is `unknown` (it resolves to `endpoint` when probed at the end of
the same occurrence, as an editor cursor would); the occurrence is
therefore skipped, and the document produces no diagnostic at all. -/
theorem C5_unknown_field_pass_never_fires :
    fieldRefsOf methdoDoc = [⟨32, "e", "methdo"⟩] ∧
    isValidField sampleParser .endpoint "methdo" = false ∧
    findSimilarFields sampleParser .endpoint "methdo" = ["method"] ∧
    analyzeContext methdoDoc (positionAt methdoDoc 32) = ⟨.unknown, none, none⟩ ∧
    (analyzeContext methdoDoc ⟨0, 41⟩).type = .endpoint ∧
    fieldPassDiagnostics sampleParser methdoDoc = [] ∧
    updateDiagnostics sampleParser methdoDoc = [] := by
  refine ⟨by decide, by decide, by decide, by decide, by decide, by decide, by decide⟩

end GoTmpl
